import Mathlib

/-!
Verification of the autocorrect engine of the `autocorrect-for-logseq` plugin.

The development shallowly embeds the pure core of `src/autocorrect.ts`
(word-boundary extraction, safety filtering, case-preserving replacement,
personal-rules parsing), the trigger-adjustment logic of
`processAutocorrect` in `src/index.ts`, and the dictionary-construction
filter of `scripts/build-dict.ts`.

JavaScript strings are modelled as `List Char`; rule tables handed to the
correction engine (plain objects or `Map`s) are modelled as arbitrary
lookup functions `List Char → Option (List Char)`; rule tables *built* by
the parsers are modelled as assignment lists in program order, with the
object lookup `objGet` returning the last assignment for a key.
-/

namespace AutocorrectSpec

/-- JavaScript `\s` on the ASCII range (space, tab, newline, carriage
return, vertical tab, form feed); `Char.isWhitespace` covers the first
four. -/
def isJsSpace (c : Char) : Bool :=
  c.isWhitespace || c = '\x0b' || c = '\x0c'

/-- The backtick character (code-span delimiter). -/
def backtick : Char := Char.ofNat 96

/-- Opening brace character. -/
def lbrace : Char := Char.ofNat 123

/-- Closing brace character. -/
def rbrace : Char := Char.ofNat 125

/-- Single-quote character. -/
def squote : Char := Char.ofNat 39

/-- `BOUNDARY_RE = /[\s.,;:!?()[\]{}"']/` of `src/autocorrect.ts`,
as a test on a single character. -/
def isBoundary (c : Char) : Bool :=
  isJsSpace c ||
    c ∈ (['.', ',', ';', ':', '!', '?', '(', ')', '[', ']',
          lbrace, rbrace, '"', squote] : List Char)

/-- JavaScript `String.prototype.trim` (ASCII whitespace). -/
def trimL (s : List Char) : List Char :=
  ((s.dropWhile isJsSpace).reverse.dropWhile isJsSpace).reverse

/-- Lowercase a modelled string, `String.prototype.toLowerCase`
restricted to ASCII. -/
def lowerL (s : List Char) : List Char := s.map Char.toLower

/-- `UK_ENGLISH_WORDS` of `src/autocorrect.ts`; the identical set also
appears in `scripts/build-dict.ts`. -/
def UK_ENGLISH_WORDS : List (List Char) :=
  (["colour", "colours", "coloured", "colouring",
    "favour", "favours", "favoured", "favouring", "favourite", "favourites",
    "behaviour", "behaviours", "behavioural",
    "honour", "honours", "honoured", "honouring", "honourable",
    "labour", "labours", "laboured", "labouring", "labourer", "labourers",
    "organise", "organises", "organised", "organising", "organisation",
    "organisations",
    "realise", "realises", "realised", "realising", "realisation",
    "realisations",
    "recognise", "recognises", "recognised", "recognising", "recognition",
    "analyse", "analyses", "analysed", "analysing", "analysis",
    "centre", "centres", "centred", "centring",
    "metre", "metres",
    "theatre", "theatres", "theatrical",
    "defence", "defences",
    "licence", "licences", "licenced", "licencing",
    "practice", "practise", "practised", "practising",
    "programme", "programmes",
    "travelled", "travelling", "traveller", "travellers",
    "cancelled", "cancelling", "cancellation"] : List String).map String.data

/-- `AMBIGUOUS_WORDS` of `src/autocorrect.ts`; the identical set also
appears in `scripts/build-dict.ts`. -/
def AMBIGUOUS_WORDS : List (List Char) :=
  (["from", "form", "for", "far", "fora",
    "to", "too", "two",
    "there", "their", "they" ++ String.mk [squote] ++ "re",
    "its", "it" ++ String.mk [squote] ++ "s",
    "your", "you" ++ String.mk [squote] ++ "re",
    "were", "we" ++ String.mk [squote] ++ "re",
    "than", "then",
    "affect", "effect",
    "accept", "except",
    "advice", "advise",
    "loose", "lose",
    "passed", "past",
    "principal", "principle",
    "stationary", "stationery",
    "weather", "whether",
    "who", "whom",
    "which", "witch"] : List String).map String.data

/-- `SAFE_SHORT_TYPOS` of `src/autocorrect.ts` (also in
`scripts/build-dict.ts`): the Short-Word Exception List. -/
def SAFE_SHORT_TYPOS : List (List Char × List Char) :=
  ([("teh", "the"),
    ("adn", "and"),
    ("taht", "that"),
    ("thsi", "this"),
    ("woudl", "would"),
    ("wolud", "would"),
    ("coudl", "could"),
    ("shoudl", "should"),
    ("waht", "what"),
    ("hwat", "what")] : List (String × String)).map
    fun p => (p.1.data, p.2.data)

/-- JavaScript object access `SAFE_SHORT_TYPOS[w]`. -/
def safeShortLookup (w : List Char) : Option (List Char) :=
  (SAFE_SHORT_TYPOS.find? fun p => p.1 = w).map Prod.snd

/-- `MIN_SAFE_LENGTH` of `src/autocorrect.ts` and
`scripts/build-dict.ts`. -/
def MIN_SAFE_LENGTH : Nat := 5

/-- A rule table as handed to the correction engine (`Rules` object or
`Map` in the source): lookup by lowercased word; `none` models an absent
key. -/
abbrev Rules : Type := List Char → Option (List Char)

/-- `isInCodeBlock` of `src/autocorrect.ts`: odd number of backticks
before the cursor means the cursor sits inside a code span. -/
def isInCodeBlock (text : List Char) (cursorPos : Nat) : Bool :=
  (text.take cursorPos).countP (fun c => c = backtick) % 2 = 1

/-- `isLikelyCode` of `src/autocorrect.ts`: a word containing a digit or
an underscore is treated as an identifier. -/
def isLikelyCode (word : List Char) : Bool :=
  word.any Char.isDigit || word.any (fun c => c = '_')

/-- `shouldTrigger` of `src/autocorrect.ts`: false on an empty (or
absent) input, else tests whether the last character is a boundary
character. -/
def shouldTrigger (lastInput : List Char) : Bool :=
  match lastInput.getLast? with
  | none => false
  | some c => isBoundary c

/-- `isSafeToCorrect` of `src/autocorrect.ts`: the runtime safety filter
(dialect protection, ambiguity protection, short-word rule with the
exception list). -/
def isSafeToCorrect (word correction : List Char) : Bool :=
  let wordLower := lowerL word
  let correctionLower := lowerL correction
  if wordLower ∈ UK_ENGLISH_WORDS then false
  else if wordLower ∈ AMBIGUOUS_WORDS then false
  else if correctionLower ∈ AMBIGUOUS_WORDS then false
  else if safeShortLookup wordLower = some correctionLower then true
  else if wordLower.length < MIN_SAFE_LENGTH then false
  else true

/-- `preserveCase` of `src/autocorrect.ts`. In the source,
`original[0]` / `replacement[0]` on an empty string would be `undefined`;
this total version returns the junk value `[]` there — see
`preserveCaseChecked` for the version that models the exception. -/
def preserveCase (original replacement : List Char) : List Char :=
  if original = original.map Char.toUpper then
    replacement.map Char.toUpper
  else
    match original with
    | [] => replacement
    | c :: _ =>
      if c = c.toUpper then
        match replacement with
        | [] => []
        | d :: ds => d.toUpper :: ds
      else replacement

/-- `preserveCase` with the implicit JavaScript exceptions made explicit:
`none` models a thrown `TypeError` from calling `.toUpperCase()` on
`undefined` (an out-of-bounds `[0]` access). -/
def preserveCaseChecked (original replacement : List Char) :
    Option (List Char) :=
  if original = original.map Char.toUpper then
    some (replacement.map Char.toUpper)
  else
    match original with
    | [] => none
    | c :: _ =>
      if c = c.toUpper then
        match replacement with
        | [] => none
        | d :: ds => some (d.toUpper :: ds)
      else some replacement

/-- The word-extraction scan of `replaceWordBeforeCursor`
(`src/autocorrect.ts`): walk backward from `cursorPos - 1` over
non-boundary characters; the word is the suffix of `text.take cursorPos`
after the last boundary character. -/
def wordBeforeCursor (text : List Char) (cursorPos : Nat) : List Char :=
  ((text.take cursorPos).reverse.takeWhile fun c => !(isBoundary c)).reverse

/-- The result record `{ newText, newCursorPos }` of
`replaceWordBeforeCursor`. -/
structure ReplaceResult where
  newText : List Char
  newCursorPos : Nat
deriving DecidableEq, Repr

/-- `replaceWordBeforeCursor` of `src/autocorrect.ts`. The JavaScript
falsiness test `!replacement` covers both an absent key (`none`) and an
empty-string value (`some []`). `newCursorPos` is
`cursorPos + (corrected.length - word.length)`; the `Nat` expression
below agrees with the JavaScript number arithmetic because the word is a
suffix of `text.take cursorPos`, so `word.length ≤ cursorPos`. -/
def replaceWordBeforeCursor (text : List Char) (cursorPos : Nat)
    (rules : Rules) : Option ReplaceResult :=
  if isInCodeBlock text cursorPos then none
  else
    let left := text.take cursorPos
    let right := text.drop cursorPos
    let word := wordBeforeCursor text cursorPos
    let start := left.length - word.length
    if word = [] then none
    else if isLikelyCode word then none
    else
      let wordLower := lowerL word
      match rules wordLower with
      | none => none
      | some replacement =>
        if replacement = [] ∨ replacement = wordLower then none
        else if isSafeToCorrect word replacement then
          let corrected := preserveCase word replacement
          let newLeft := left.take start ++ corrected
          some ⟨newLeft ++ right, cursorPos + corrected.length - word.length⟩
        else none

/-- `replaceWordBeforeCursor` with the exception behaviour of
`preserveCase` made explicit: `none` models a thrown exception, `some r`
a normal return of `r`. -/
def replaceWordBeforeCursorChecked (text : List Char) (cursorPos : Nat)
    (rules : Rules) : Option (Option ReplaceResult) :=
  if isInCodeBlock text cursorPos then some none
  else
    let left := text.take cursorPos
    let right := text.drop cursorPos
    let word := wordBeforeCursor text cursorPos
    let start := left.length - word.length
    if word = [] then some none
    else if isLikelyCode word then some none
    else
      let wordLower := lowerL word
      match rules wordLower with
      | none => some none
      | some replacement =>
        if replacement = [] ∨ replacement = wordLower then some none
        else if isSafeToCorrect word replacement then
          match preserveCaseChecked word replacement with
          | none => none
          | some corrected =>
            let newLeft := left.take start ++ corrected
            some (some ⟨newLeft ++ right,
                        cursorPos + corrected.length - word.length⟩)
        else some none

/-- The pure tail of `processAutocorrect` (`src/index.ts`, from the
trigger check on): the host-state guards that precede it (plugin
disabled, dedup suppression, empty rule cache) all return `null` and are
modelled as having passed. The engine checks the character *before* the
cursor and, when it triggers, runs the replacement at `pos - 1`; a
replacement whose `newText` is falsy (empty) is also rejected. -/
def processAutocorrect (content : List Char) (pos : Nat) (rules : Rules) :
    Option ReplaceResult :=
  let checkChar : Option Char :=
    if pos > 0 then content.get? (pos - 1) else content.get? pos
  let checkStr : List Char :=
    match checkChar with
    | none => []
    | some c => [c]
  if !(shouldTrigger checkStr) then none
  else
    let checkPos := if pos > 0 then pos - 1 else pos
    match replaceWordBeforeCursor content checkPos rules with
    | none => none
    | some r => if r.newText = [] then none else some r

/-! ### Built rule tables as assignment lists

`rules[k] = v` assignments of the dictionary and personal-rules parsers
are recorded in program order; `objGet` is the resulting object lookup
(the last assignment for a key wins). -/

/-- Object lookup on an assignment list: the value of the *last*
assignment to `k`, as in a JavaScript object built by repeated
`rules[k] = v`. -/
def objGet (rules : List (List Char × List Char)) (k : List Char) :
    Option (List Char) :=
  (rules.reverse.find? fun p => p.1 = k).map Prod.snd

/-- Split a modelled string into lines. The source splits on `/\r?\n/`;
since every line is immediately `trim`med afterwards (both in
`parseCodespellDictionary` and `parsePersonalRules`), splitting on `'\n'`
alone is observationally identical: the only difference is a carriage
return at the end of a piece, which the trim removes. -/
def splitLines (s : List Char) : List (List Char) := s.splitOn '\n'

/-- Split on runs of whitespace, dropping empty tokens — JavaScript
`split(/\s+/)` on an already-trimmed string. -/
def splitWsAux (cur : List Char) : List Char → List (List Char)
  | [] => if cur = [] then [] else [cur.reverse]
  | c :: rest =>
    if isJsSpace c then
      if cur = [] then splitWsAux [] rest
      else cur.reverse :: splitWsAux [] rest
    else splitWsAux (c :: cur) rest

/-- JavaScript `lineTrimmed.split(/\s+/)` for trimmed input. -/
def splitWs (s : List Char) : List (List Char) := splitWsAux [] s

/-! ### `scripts/build-dict.ts`: the dictionary filter -/

/-- `isSafeToInclude` of `scripts/build-dict.ts`: the build-time
counterpart of `isSafeToCorrect` (its arguments are already
lowercased by `parseCodespellDictionary`). -/
def isSafeToInclude (typo correction : List Char) : Bool :=
  if typo ∈ UK_ENGLISH_WORDS then false
  else if typo ∈ AMBIGUOUS_WORDS then false
  else if correction ∈ AMBIGUOUS_WORDS then false
  else if safeShortLookup typo = some correction then true
  else if typo.length < MIN_SAFE_LENGTH then false
  else if typo.length < 6 ∧ correction.length < 6 then true
  else true

/-- The regex match `^(.+?)->(.+)$` of `parseCodespellDictionary`,
scanning for the first `->` after at least one character: `go` carries
the (reversed) characters consumed so far and succeeds at the first
`->` whose remainder is non-empty. -/
def arrowMatchGo (acc : List Char) : List Char → Option (List Char × List Char)
  | '-' :: '>' :: rest => if rest = [] then none else some (acc.reverse, rest)
  | c :: rest => arrowMatchGo (c :: acc) rest
  | [] => none

/-- `trimmed.match(/^(.+?)->(.+)$/)`: `some (m1, m2)` are the two capture
groups. The lazy `(.+?)` consumes at least one character before the
first `->`, and `(.+)` requires a non-empty remainder. -/
def arrowMatch : List Char → Option (List Char × List Char)
  | [] => none
  | c :: rest => arrowMatchGo [c] rest

/-- The candidate-selection loop of `parseCodespellDictionary`: prefer
the first (lowercased) candidate that is a UK English word, breaking
there; otherwise the first candidate whose lowercase form is truthy
(non-empty). `acc` models the mutable `correction` variable
(`none` = `null`). -/
def pickCorrection (acc : Option (List Char)) :
    List (List Char) → Option (List Char)
  | [] => acc
  | c :: rest =>
    let corrLower := lowerL c
    if corrLower ∈ UK_ENGLISH_WORDS then some corrLower
    else if acc = none ∨ acc = some [] then pickCorrection (some corrLower) rest
    else pickCorrection acc rest

/-- One iteration of the line loop of `parseCodespellDictionary`
(`scripts/build-dict.ts`). -/
def codespellLine (rules : List (List Char × List Char)) (line : List Char) :
    List (List Char × List Char) :=
  let trimmed := trimL line
  if trimmed = [] then rules
  else if trimmed.head? = some '#' then rules
  else
    match arrowMatch trimmed with
    | none => rules
    | some (m1, m2) =>
      let typo := lowerL (trimL m1)
      let corrections := (m2.splitOn ',').map trimL
      if typo ∈ UK_ENGLISH_WORDS then rules
      else
        match pickCorrection none corrections with
        | none => rules
        | some correction =>
          if correction = [] ∨ correction = typo then rules
          else if typo ∈ UK_ENGLISH_WORDS ∧ correction ∉ UK_ENGLISH_WORDS then
            rules
          else if isSafeToInclude typo correction then rules ++ [(typo, correction)]
          else rules

/-- `parseCodespellDictionary` of `scripts/build-dict.ts`, as the list of
`rules[typo] = correction` assignments in program order. -/
def parseCodespellDictionary (content : List Char) :
    List (List Char × List Char) :=
  (splitLines content).foldl codespellLine []

/-! ### `parsePersonalRules` of `src/autocorrect.ts` -/

/-- One iteration of the line loop of `parsePersonalRules`: skip blank
and `#` lines and lines with fewer than two whitespace-separated tokens;
otherwise assign the lowercased first token to the lowercased join of the
remaining tokens. -/
def personalLine (rules : List (List Char × List Char)) (line : List Char) :
    List (List Char × List Char) :=
  let lineTrimmed := trimL line
  if lineTrimmed = [] then rules
  else if lineTrimmed.head? = some '#' then rules
  else
    match splitWs lineTrimmed with
    | typo :: c :: rest =>
      rules ++ [(lowerL typo, lowerL (List.intercalate [' '] (c :: rest)))]
    | _ => rules

/-- `parsePersonalRules` of `src/autocorrect.ts`. `JSON.parse` cannot be
embedded shallowly, so it is a parameter: `jsonParse s` returns the
string-valued entries of the parsed object in enumeration order, or
`none` when parsing throws (the fall-through to the line-based format).
When the trimmed input looks like JSON (`{`…`}`) and parses, every key
and value is lowercased; otherwise the line-based format applies. -/
def parsePersonalRules
    (jsonParse : List Char → Option (List (List Char × List Char)))
    (input : List Char) : List (List Char × List Char) :=
  let trimmed := trimL input
  if trimmed = [] then []
  else if trimmed.head? = some lbrace ∧ trimmed.getLast? = some rbrace then
    match jsonParse trimmed with
    | some entries =>
      entries.foldl (fun acc kv => acc ++ [(lowerL kv.1, lowerL kv.2)]) []
    | none => (splitLines trimmed).foldl personalLine []
  else (splitLines trimmed).foldl personalLine []

/-- The line-based parse as the specification states it, per line: a
blank line or a `#` comment contributes nothing, a line with fewer than
two whitespace-separated tokens contributes nothing, and any other line
maps its first token (lowercased) to everything after the first token
(the remaining tokens, lowercased). -/
def specLineEntry (line : List Char) : Option (List Char × List Char) :=
  let lineTrimmed := trimL line
  if lineTrimmed = [] ∨ lineTrimmed.head? = some '#' then none
  else
    match splitWs lineTrimmed with
    | typo :: c :: rest =>
      some (lowerL typo, lowerL (List.intercalate [' '] (c :: rest)))
    | _ => none

/-- The line-based personal-rules table as the specification states it. -/
def specLineRules (trimmed : List Char) : List (List Char × List Char) :=
  (splitLines trimmed).filterMap specLineEntry

/-! ## Helper lemmas -/

theorem char_toNat_ofNat_valid (n : Nat) (h : n.isValidChar) :
    (Char.ofNat n).toNat = n := by
  simp only [Char.ofNat, dif_pos h]
  rfl

theorem char_toLower_idem (c : Char) : c.toLower.toLower = c.toLower := by
  simp only [Char.toLower]
  split
  · next h =>
    have hv : (c.toNat + 32).isValidChar := by
      left
      omega
    rw [char_toNat_ofNat_valid _ hv, if_neg (by omega)]
  · rfl

theorem lowerL_idem (s : List Char) : lowerL (lowerL s) = lowerL s := by
  simp only [lowerL, List.map_map]
  exact List.map_congr_left fun c _ => char_toLower_idem c

theorem lowerL_length (s : List Char) : (lowerL s).length = s.length :=
  List.length_map s Char.toLower

/-- A successful `SAFE_SHORT_TYPOS` lookup exhibits a pair of the
exception list. -/
theorem safeShortLookup_mem {t c : List Char}
    (h : safeShortLookup t = some c) : (t, c) ∈ SAFE_SHORT_TYPOS := by
  unfold safeShortLookup at h
  cases hf : SAFE_SHORT_TYPOS.find? fun p => p.1 = t with
  | none => rw [hf] at h; simp at h
  | some q =>
    rw [hf] at h
    simp only [Option.map_some', Option.some.injEq] at h
    have hq := List.find?_some hf
    have hmem : q ∈ SAFE_SHORT_TYPOS := List.mem_of_find?_eq_some hf
    simp only [decide_eq_true_eq] at hq
    have : (t, c) = q := by
      cases q
      simp_all
    rwa [this]

/-- `objGet rules k = some v` exhibits an assignment `(k, v)` in the
list. -/
theorem objGet_mem {rules : List (List Char × List Char)}
    {k v : List Char} (h : objGet rules k = some v) : (k, v) ∈ rules := by
  unfold objGet at h
  cases hf : rules.reverse.find? fun p => p.1 = k with
  | none => rw [hf] at h; simp at h
  | some q =>
    rw [hf] at h
    simp only [Option.map_some', Option.some.injEq] at h
    have hq := List.find?_some hf
    have hmem : q ∈ rules.reverse := List.mem_of_find?_eq_some hf
    simp only [decide_eq_true_eq] at hq
    rw [List.mem_reverse] at hmem
    have : (k, v) = q := by
      cases q
      simp_all
    rwa [this]

/-- What `isSafeToCorrect word correction = true` guarantees. -/
theorem isSafeToCorrect_spec {word correction : List Char}
    (h : isSafeToCorrect word correction = true) :
    lowerL word ∉ UK_ENGLISH_WORDS ∧ lowerL word ∉ AMBIGUOUS_WORDS ∧
      lowerL correction ∉ AMBIGUOUS_WORDS ∧
      (safeShortLookup (lowerL word) = some (lowerL correction) ∨
        MIN_SAFE_LENGTH ≤ (lowerL word).length) := by
  simp only [isSafeToCorrect] at h
  split at h
  · simp at h
  next huk =>
    split at h
    · simp at h
    next hamb =>
      split at h
      · simp at h
      next hambc =>
        split at h
        next hshort => exact ⟨huk, hamb, hambc, Or.inl hshort⟩
        next hshort =>
          split at h
          · simp at h
          next hlen => exact ⟨huk, hamb, hambc, Or.inr (by omega)⟩

/-- What `isSafeToInclude typo correction = true` guarantees. -/
theorem isSafeToInclude_spec {typo correction : List Char}
    (h : isSafeToInclude typo correction = true) :
    typo ∉ UK_ENGLISH_WORDS ∧ typo ∉ AMBIGUOUS_WORDS ∧
      correction ∉ AMBIGUOUS_WORDS ∧
      (MIN_SAFE_LENGTH ≤ typo.length ∨ (typo, correction) ∈ SAFE_SHORT_TYPOS) := by
  simp only [isSafeToInclude] at h
  split at h
  · simp at h
  next huk =>
    split at h
    · simp at h
    next hamb =>
      split at h
      · simp at h
      next hambc =>
        split at h
        next hshort => exact ⟨huk, hamb, hambc, Or.inr (safeShortLookup_mem hshort)⟩
        next hshort =>
          split at h
          · simp at h
          next hlen => exact ⟨huk, hamb, hambc, Or.inl (by omega)⟩

/-- The extracted word is never longer than the text left of the
cursor. -/
theorem wordBeforeCursor_length_le (text : List Char) (pos : Nat) :
    (wordBeforeCursor text pos).length ≤ (text.take pos).length := by
  unfold wordBeforeCursor
  rw [List.length_reverse]
  calc ((text.take pos).reverse.takeWhile fun c => !(isBoundary c)).length
      ≤ (text.take pos).reverse.length :=
        List.Sublist.length_le (List.takeWhile_sublist _)
    _ = (text.take pos).length := List.length_reverse _

theorem wordBeforeCursor_length_le_pos (text : List Char) (pos : Nat) :
    (wordBeforeCursor text pos).length ≤ pos := by
  have h := wordBeforeCursor_length_le text pos
  rw [List.length_take] at h
  omega

/-- Inversion on a successful run of `replaceWordBeforeCursor`: all the
guards passed and the result is the spliced text with the shifted
cursor. -/
theorem replace_eq_some {text : List Char} {pos : Nat} {rules : Rules}
    {r : ReplaceResult}
    (h : replaceWordBeforeCursor text pos rules = some r) :
    isInCodeBlock text pos = false ∧
      wordBeforeCursor text pos ≠ [] ∧
      isLikelyCode (wordBeforeCursor text pos) = false ∧
      ∃ replacement,
        rules (lowerL (wordBeforeCursor text pos)) = some replacement ∧
        replacement ≠ [] ∧
        replacement ≠ lowerL (wordBeforeCursor text pos) ∧
        isSafeToCorrect (wordBeforeCursor text pos) replacement = true ∧
        r = ⟨(text.take pos).take
               ((text.take pos).length - (wordBeforeCursor text pos).length)
              ++ preserveCase (wordBeforeCursor text pos) replacement
              ++ text.drop pos,
             pos + (preserveCase (wordBeforeCursor text pos) replacement).length
               - (wordBeforeCursor text pos).length⟩ := by
  simp only [replaceWordBeforeCursor] at h
  split at h
  · exact absurd h (by simp)
  next hcode =>
    split at h
    · exact absurd h (by simp)
    next hword =>
      split at h
      · exact absurd h (by simp)
      next hlikely =>
        split at h
        · exact absurd h (by simp)
        next replacement hrep =>
          split at h
          · exact absurd h (by simp)
          next hfalsy =>
            split at h
            next hsafe =>
              rw [Option.some.injEq] at h
              push_neg at hfalsy
              refine ⟨by simpa using hcode, hword, by simpa using hlikely,
                replacement, hrep, hfalsy.1, hfalsy.2, hsafe, h.symm⟩
            next => exact absurd h (by simp)

/-- When both arguments are non-empty, the checked `preserveCase` agrees
with the total one and throws no exception. -/
theorem preserveCaseChecked_eq (original replacement : List Char)
    (ho : original ≠ []) (hr : replacement ≠ []) :
    preserveCaseChecked original replacement =
      some (preserveCase original replacement) := by
  cases original with
  | nil => exact absurd rfl ho
  | cons c cs =>
    cases replacement with
    | nil => exact absurd rfl hr
    | cons d ds =>
      simp only [preserveCaseChecked, preserveCase]
      split
      · rfl
      · split <;> rfl

/-- The guards of `replaceWordBeforeCursor` ensure `preserveCase` is only
ever called on a non-empty word and non-empty replacement, so the checked
run never throws and agrees with the total embedding. -/
theorem replaceWordBeforeCursorChecked_eq (text : List Char) (pos : Nat)
    (rules : Rules) :
    replaceWordBeforeCursorChecked text pos rules =
      some (replaceWordBeforeCursor text pos rules) := by
  simp only [replaceWordBeforeCursorChecked, replaceWordBeforeCursor]
  split
  · rfl
  next hcode =>
    split
    · rfl
    next hword =>
      split
      · rfl
      next hlikely =>
        split
        · rfl
        next replacement hrep =>
          split
          · rfl
          next hfalsy =>
            push_neg at hfalsy
            split
            next hsafe =>
              rw [preserveCaseChecked_eq _ _ hword hfalsy.1]
            next => rfl

/-- Any assignment made by one `parseCodespellDictionary` line iteration
passed the `correction ≠ typo` guard and the `isSafeToInclude` filter. -/
theorem codespellLine_mem {rules : List (List Char × List Char)}
    {line : List Char} {p : List Char × List Char}
    (hp : p ∈ codespellLine rules line) :
    p ∈ rules ∨ (p.1 ≠ p.2 ∧ isSafeToInclude p.1 p.2 = true) := by
  simp only [codespellLine] at hp
  split at hp
  · exact Or.inl hp
  split at hp
  · exact Or.inl hp
  split at hp
  · exact Or.inl hp
  next m1 m2 heq =>
    split at hp
    · exact Or.inl hp
    next =>
      split at hp
      · exact Or.inl hp
      next correction hpc =>
        split at hp
        · exact Or.inl hp
        next hne =>
          split at hp
          · exact Or.inl hp
          next =>
            split at hp
            next hsafe =>
              rcases List.mem_append.mp hp with h | h
              · exact Or.inl h
              · simp only [List.mem_singleton] at h
                subst h
                push_neg at hne
                exact Or.inr ⟨fun e => hne.2 e.symm, hsafe⟩
            next => exact Or.inl hp

theorem foldl_codespellLine_mem :
    ∀ (lines : List (List Char)) (init : List (List Char × List Char))
      (p : List Char × List Char), p ∈ lines.foldl codespellLine init →
      p ∈ init ∨ (p.1 ≠ p.2 ∧ isSafeToInclude p.1 p.2 = true) := by
  intro lines
  induction lines with
  | nil => intro init p hp; exact Or.inl hp
  | cons l ls ih =>
    intro init p hp
    rw [List.foldl_cons] at hp
    rcases ih _ p hp with h | h
    · exact codespellLine_mem h
    · exact Or.inr h

/-- One `parsePersonalRules` line iteration appends exactly the entry the
specification describes for that line. -/
theorem personalLine_eq (acc : List (List Char × List Char)) (l : List Char) :
    personalLine acc l = acc ++ (specLineEntry l).toList := by
  simp only [personalLine, specLineEntry]
  by_cases h1 : trimL l = []
  · simp [h1]
  · by_cases h2 : (trimL l).head? = some '#'
    · simp [h1, h2]
    · have h12 : ¬(trimL l = [] ∨ (trimL l).head? = some '#') := by tauto
      simp only [if_neg h1, if_neg h2, if_neg h12]
      cases hs : splitWs (trimL l) with
      | nil => simp
      | cons t rest0 =>
        cases rest0 with
        | nil => simp
        | cons c rest => simp [Option.toList]

theorem foldl_personalLine (lines : List (List Char))
    (acc : List (List Char × List Char)) :
    lines.foldl personalLine acc = acc ++ lines.filterMap specLineEntry := by
  induction lines generalizing acc with
  | nil => simp
  | cons l ls ih =>
    rw [List.foldl_cons, personalLine_eq, ih, List.filterMap_cons]
    cases specLineEntry l <;> simp [Option.toList]

theorem foldl_lower_entries :
    ∀ (entries acc : List (List Char × List Char)),
      entries.foldl (fun acc kv => acc ++ [(lowerL kv.1, lowerL kv.2)]) acc =
        acc ++ entries.map fun kv => (lowerL kv.1, lowerL kv.2) := by
  intro entries
  induction entries with
  | nil => intro acc; simp
  | cons x xs ih =>
    intro acc
    rw [List.foldl_cons, ih]
    simp

/-- A successful `specLineEntry` produces lowercased components. -/
theorem specLineEntry_lower {l : List Char} {p : List Char × List Char}
    (h : specLineEntry l = some p) :
    (∃ a, p.1 = lowerL a) ∧ (∃ b, p.2 = lowerL b) := by
  simp only [specLineEntry] at h
  split at h
  · simp at h
  · split at h
    next t c rest heq =>
      rw [Option.some.injEq] at h
      exact ⟨⟨t, by rw [← h]⟩, ⟨List.intercalate [' '] (c :: rest), by rw [← h]⟩⟩
    next => simp at h

/-- Every entry of a parsed personal-rules table is a lowercasing, on
both the JSON-shaped path and the line-based path. -/
theorem parsePersonalRules_mem
    (jsonParse : List Char → Option (List (List Char × List Char)))
    (input : List Char) (p : List Char × List Char)
    (hp : p ∈ parsePersonalRules jsonParse input) :
    (∃ a, p.1 = lowerL a) ∧ (∃ b, p.2 = lowerL b) := by
  have lineCase : ∀ lines : List (List Char), p ∈ lines.foldl personalLine
      ([] : List (List Char × List Char)) →
      (∃ a, p.1 = lowerL a) ∧ (∃ b, p.2 = lowerL b) := by
    intro lines hmem
    rw [foldl_personalLine, List.nil_append, List.mem_filterMap] at hmem
    obtain ⟨l, -, hl⟩ := hmem
    exact specLineEntry_lower hl
  simp only [parsePersonalRules] at hp
  split at hp
  · simp at hp
  · split at hp
    · split at hp
      next entries hj =>
        rw [foldl_lower_entries, List.nil_append, List.mem_map] at hp
        obtain ⟨kv, -, hkv⟩ := hp
        exact ⟨⟨kv.1, by rw [← hkv]⟩, ⟨kv.2, by rw [← hkv]⟩⟩
      next hj => exact lineCase _ hp
    · exact lineCase _ hp

/-! ## The claims -/

/-- C1 (counterexample to the literal reading): for `"I typed teh "`
with cursor offset 12 — the text's length — the pipeline does produce
`"I typed the "`, but its `newCursorPos` is 11 (= `pos - 1`, the offset
the word extractor actually ran at), not the original cursor offset 12;
and calling the word extractor directly at offset 12 extracts nothing at
all (the character left of the cursor is the boundary space), so it
returns `null` rather than a result. -/
theorem teh_end_of_text_literal_refuted :
    processAutocorrect "I typed teh ".data 12
        (fun w => if w = "teh".data then some "the".data else none) ≠
      some ⟨"I typed the ".data, 12⟩ ∧
    replaceWordBeforeCursor "I typed teh ".data 12
        (fun w => if w = "teh".data then some "the".data else none) = none := by
  constructor
  · decide
  · decide

/-- C1 (amended): for `"I typed teh "` with cursor offset 12 = the
text's length and a table `teh → the`, the pipeline triggers on the
boundary character before the cursor and runs the word extractor at
offset 11; the extractor extracts `"teh"`, finds correction `"the"`, and
returns `newText "I typed the "` with `newCursorPos` 11 — equal to the
cursor offset the extractor was given (equal lengths, no shift), one
less than the original cursor offset. -/
theorem teh_end_of_text_pipeline :
    wordBeforeCursor "I typed teh ".data 11 = "teh".data ∧
    (if "teh".data = "teh".data then some "the".data else none) =
      some "the".data ∧
    processAutocorrect "I typed teh ".data 12
        (fun w => if w = "teh".data then some "the".data else none) =
      some ⟨"I typed the ".data, 11⟩ ∧
    replaceWordBeforeCursor "I typed teh ".data 11
        (fun w => if w = "teh".data then some "the".data else none) =
      some ⟨"I typed the ".data, 11⟩ := by
  refine ⟨by decide, rfl, by decide, by decide⟩

/-- C2: for every text, cursor offset and rule table, if the word before
the cursor lowercases to a dialect-protected (UK English) word, then
`replaceWordBeforeCursor` returns `null` — the safety filter re-checks
regardless of table provenance. -/
theorem dialect_protected_never_corrected (text : List Char) (pos : Nat)
    (rules : Rules)
    (h : lowerL (wordBeforeCursor text pos) ∈ UK_ENGLISH_WORDS) :
    replaceWordBeforeCursor text pos rules = none := by
  cases hr : replaceWordBeforeCursor text pos rules with
  | none => rfl
  | some r =>
    obtain ⟨-, -, -, replacement, -, -, -, hsafe, -⟩ := replace_eq_some hr
    exact absurd h (isSafeToCorrect_spec hsafe).1

theorem dialect_protected_never_corrected_witness :
    replaceWordBeforeCursor "colour".data 6 (fun _ => some "color".data) =
      none :=
  dialect_protected_never_corrected "colour".data 6 (fun _ => some "color".data)
    (by decide)

/-- C3: for every text, cursor offset and rule table, if the extracted
word's lowercase form is in the ambiguous set, or the correction the
table maps it to has a lowercase form in the ambiguous set, then
`replaceWordBeforeCursor` returns `null`. -/
theorem ambiguous_never_corrected (text : List Char) (pos : Nat)
    (rules : Rules)
    (h : lowerL (wordBeforeCursor text pos) ∈ AMBIGUOUS_WORDS ∨
      ∃ c, rules (lowerL (wordBeforeCursor text pos)) = some c ∧
        lowerL c ∈ AMBIGUOUS_WORDS) :
    replaceWordBeforeCursor text pos rules = none := by
  cases hr : replaceWordBeforeCursor text pos rules with
  | none => rfl
  | some r =>
    obtain ⟨-, -, -, replacement, hrep, -, -, hsafe, -⟩ := replace_eq_some hr
    obtain ⟨-, hw, hc, -⟩ := isSafeToCorrect_spec hsafe
    rcases h with h | ⟨c, hc', hamb⟩
    · exact absurd h hw
    · rw [hrep, Option.some.injEq] at hc'
      rw [hc'] at hc
      exact absurd hamb hc

theorem ambiguous_never_corrected_witness :
    replaceWordBeforeCursor "from".data 4 (fun _ => some "form".data) =
      none :=
  ambiguous_never_corrected "from".data 4 (fun _ => some "form".data)
    (Or.inl (by decide))

/-- C4: every entry `(t, c)` of the rule table produced by the
dictionary filter satisfies `t ≠ c`, `t` not dialect-protected, neither
`t` nor `c` ambiguous, and `t` at least `MIN_SAFE_LENGTH` long unless
`(t, c)` is exactly a Short-Word Exception List pair. -/
theorem dict_entries_safe (content t c : List Char)
    (h : objGet (parseCodespellDictionary content) t = some c) :
    t ≠ c ∧ t ∉ UK_ENGLISH_WORDS ∧ t ∉ AMBIGUOUS_WORDS ∧
      c ∉ AMBIGUOUS_WORDS ∧
      (MIN_SAFE_LENGTH ≤ t.length ∨ (t, c) ∈ SAFE_SHORT_TYPOS) := by
  have hmem := objGet_mem h
  unfold parseCodespellDictionary at hmem
  rcases foldl_codespellLine_mem _ _ _ hmem with h0 | ⟨hne, hsafe⟩
  · simp at h0
  · obtain ⟨h1, h2, h3, h4⟩ := isSafeToInclude_spec hsafe
    exact ⟨hne, h1, h2, h3, h4⟩

theorem dict_entries_safe_witness :
    "teh".data ≠ "the".data ∧ "teh".data ∉ UK_ENGLISH_WORDS ∧
      "teh".data ∉ AMBIGUOUS_WORDS ∧ "the".data ∉ AMBIGUOUS_WORDS ∧
      (MIN_SAFE_LENGTH ≤ "teh".data.length ∨
        ("teh".data, "the".data) ∈ SAFE_SHORT_TYPOS) :=
  dict_entries_safe "teh->the".data "teh".data "the".data (by decide)

/-- C5: an extracted word of length 4 whose lowercase pair with the
correction the table maps it to is not an exact Short-Word Exception
List entry is never corrected; a word whose lowercase pair exactly
matches an exception-list entry always passes the safety filter; and the
length-4 exception pair `taht → that` is indeed corrected. -/
theorem short_word_exception_boundary :
    (∀ (text : List Char) (pos : Nat) (rules : Rules),
      (wordBeforeCursor text pos).length = 4 →
      (∀ c, rules (lowerL (wordBeforeCursor text pos)) = some c →
        safeShortLookup (lowerL (wordBeforeCursor text pos)) ≠ some (lowerL c)) →
      replaceWordBeforeCursor text pos rules = none) ∧
    (∀ word correction : List Char,
      safeShortLookup (lowerL word) = some (lowerL correction) →
      isSafeToCorrect word correction = true) ∧
    replaceWordBeforeCursor "taht".data 4
      (fun w => if w = "taht".data then some "that".data else none) =
      some ⟨"that".data, 4⟩ := by
  refine ⟨?_, ?_, by decide⟩
  · intro text pos rules hlen hexc
    cases hr : replaceWordBeforeCursor text pos rules with
    | none => rfl
    | some r =>
      obtain ⟨-, -, -, replacement, hrep, -, -, hsafe, -⟩ := replace_eq_some hr
      rcases (isSafeToCorrect_spec hsafe).2.2.2 with hs | hlong
      · exact absurd hs (hexc replacement hrep)
      · rw [lowerL_length, hlen] at hlong
        unfold MIN_SAFE_LENGTH at hlong
        omega
  · intro word correction h
    have hfacts : ∀ p ∈ SAFE_SHORT_TYPOS, p.1 ∉ UK_ENGLISH_WORDS ∧
        p.1 ∉ AMBIGUOUS_WORDS ∧ p.2 ∉ AMBIGUOUS_WORDS := by decide
    obtain ⟨f1, f2, f3⟩ := hfacts _ (safeShortLookup_mem h)
    simp only [isSafeToCorrect]
    rw [if_neg f1, if_neg f2, if_neg f3, if_pos h]

theorem short_word_exception_boundary_witness :
    replaceWordBeforeCursor "abcd".data 4
      (fun w => if w = "abcd".data then some "efgh".data else none) = none := by
  refine short_word_exception_boundary.1 "abcd".data 4 _ (by decide) ?_
  intro c hc
  have hw : lowerL (wordBeforeCursor "abcd".data 4) = "abcd".data := by decide
  rw [hw, if_pos rfl, Option.some.injEq] at hc
  rw [← hc]
  decide

/-- C6: the case-preserving rewriter maps original `"Teh"` with
correction `"the"` to `"The"`, `"TEH"` to `"THE"`, and `"teh"` to
`"the"`. -/
theorem preserve_case_concrete :
    preserveCase "Teh".data "the".data = "The".data ∧
    preserveCase "TEH".data "the".data = "THE".data ∧
    preserveCase "teh".data "the".data = "the".data := by
  refine ⟨by decide, by decide, by decide⟩

/-- C7: whenever `replaceWordBeforeCursor` returns a result, the new
text is the text before the word, then the cased correction, then the
text from the cursor on — everything outside the word's span unchanged —
and the new cursor offset is the old one shifted by exactly the length
difference between the cased correction and the original word (stated
additively: `newCursorPos + |word| = pos + |correction|`). -/
theorem splice_and_cursor_shift (text : List Char) (pos : Nat)
    (rules : Rules) (r : ReplaceResult)
    (h : replaceWordBeforeCursor text pos rules = some r) :
    ∃ replacement,
      rules (lowerL (wordBeforeCursor text pos)) = some replacement ∧
      r.newText =
        text.take ((text.take pos).length - (wordBeforeCursor text pos).length)
          ++ preserveCase (wordBeforeCursor text pos) replacement
          ++ text.drop pos ∧
      r.newCursorPos + (wordBeforeCursor text pos).length =
        pos + (preserveCase (wordBeforeCursor text pos) replacement).length := by
  obtain ⟨-, -, -, replacement, hrep, -, -, -, hr⟩ := replace_eq_some h
  subst hr
  have hw := wordBeforeCursor_length_le text pos
  have hwp := wordBeforeCursor_length_le_pos text pos
  have hlt : (text.take pos).length = pos ⊓ text.length := List.length_take pos text
  refine ⟨replacement, hrep, ?_, ?_⟩
  · dsimp only
    have hmin :
        ((text.take pos).length - (wordBeforeCursor text pos).length) ⊓ pos =
          (text.take pos).length - (wordBeforeCursor text pos).length := by
      omega
    rw [List.take_take, hmin]
  · dsimp only
    omega

theorem splice_and_cursor_shift_witness :
    ∃ replacement,
      (fun w => if w = "teh".data then some "the".data else none : Rules)
          (lowerL (wordBeforeCursor "teh".data 3)) = some replacement ∧
      (ReplaceResult.mk "the".data 3).newText =
        "teh".data.take
            (("teh".data.take 3).length - (wordBeforeCursor "teh".data 3).length)
          ++ preserveCase (wordBeforeCursor "teh".data 3) replacement
          ++ "teh".data.drop 3 ∧
      (ReplaceResult.mk "the".data 3).newCursorPos +
          (wordBeforeCursor "teh".data 3).length =
        3 + (preserveCase (wordBeforeCursor "teh".data 3) replacement).length :=
  splice_and_cursor_shift "teh".data 3
    (fun w => if w = "teh".data then some "the".data else none)
    (ReplaceResult.mk "the".data 3) (by decide)

/-- C8: whenever the trimmed personal-rules input is not brace-delimited,
or its JSON parse fails, `parsePersonalRules` parses line by line exactly
as specified: blank lines and `#` comments are skipped, lines with fewer
than two whitespace-separated tokens are skipped, and every other line
maps its first token (lowercased) to everything after the first token
(the remaining tokens, lowercased), so multi-word corrections are
supported. -/
theorem personal_rules_line_format
    (jsonParse : List Char → Option (List (List Char × List Char)))
    (input : List Char)
    (h : ¬((trimL input).head? = some lbrace ∧
            (trimL input).getLast? = some rbrace) ∨
          jsonParse (trimL input) = none) :
    parsePersonalRules jsonParse input = specLineRules (trimL input) := by
  simp only [parsePersonalRules]
  split
  next h0 =>
    rw [h0]
    decide
  next h0 =>
    split
    next hjson =>
      cases hj : jsonParse (trimL input) with
      | some entries =>
        rcases h with h | h
        · exact absurd hjson h
        · rw [h] at hj
          exact absurd hj (by simp)
      | none =>
        rw [foldl_personalLine, List.nil_append]
        rfl
    next hjson =>
      rw [foldl_personalLine, List.nil_append]
      rfl

theorem personal_rules_line_format_witness :
    parsePersonalRules (fun _ => none) "Teh   The extra\n# note\nsolo".data =
      specLineRules (trimL "Teh   The extra\n# note\nsolo".data) :=
  personal_rules_line_format (fun _ => none)
    "Teh   The extra\n# note\nsolo".data (Or.inr rfl)

/-- C9: `replaceWordBeforeCursor` is total and exception-free for every
in-range cursor offset: the checked embedding — in which an out-of-bounds
`[0]` access inside `preserveCase` is an explicit error — never errors
and returns exactly the result (null or a record) of the total
embedding; the guards ensure `preserveCase` only ever sees a non-empty
word and a non-empty replacement. -/
theorem replace_total_exception_free (text : List Char) (pos : Nat)
    (rules : Rules) (_hpos : pos ≤ text.length) :
    replaceWordBeforeCursorChecked text pos rules =
      some (replaceWordBeforeCursor text pos rules) :=
  replaceWordBeforeCursorChecked_eq text pos rules

theorem replace_total_exception_free_witness :
    replaceWordBeforeCursorChecked "colour wierd".data 12
        (fun w => if w = "wierd".data then some "weird".data else none) =
      some (replaceWordBeforeCursor "colour wierd".data 12
        (fun w => if w = "wierd".data then some "weird".data else none)) :=
  replace_total_exception_free "colour wierd".data 12
    (fun w => if w = "wierd".data then some "weird".data else none) (by decide)

/-- C10: every key and value of a parsed personal-rules table is already
lowercase (fixed by lowercasing), on both the JSON-shaped path and the
line-based path. -/
theorem personal_rules_lowercase_closed
    (jsonParse : List Char → Option (List (List Char × List Char)))
    (input k v : List Char)
    (h : objGet (parsePersonalRules jsonParse input) k = some v) :
    lowerL k = k ∧ lowerL v = v := by
  have hmem := objGet_mem h
  obtain ⟨⟨a, ha⟩, ⟨b, hb⟩⟩ := parsePersonalRules_mem _ _ _ hmem
  simp only at ha hb
  constructor
  · rw [ha, lowerL_idem]
  · rw [hb, lowerL_idem]

theorem personal_rules_lowercase_closed_witness :
    lowerL "teh".data = "teh".data ∧ lowerL "the".data = "the".data :=
  personal_rules_lowercase_closed (fun _ => none) "TEH The".data
    "teh".data "the".data (by decide)

end AutocorrectSpec
